import Mathlib

/-!
Verification of the gomoku-sampler MCTS engine (`src/gomoku/mcts.h`,
`src/gomoku/gomoku.h`) via a shallow embedding.

Floating-point `double` values are modelled as exact rationals (`Rat`) for
win/result accumulation (all results are in {0, 1/2, 1}, whose sums and the
smoothed success rates are exact), and as reals (`Real`) for the UCT score,
which involves `sqrt` and `log`.

Randomness (`std::mt19937_64` + `uniform_int_distribution`) is modelled by an
abstract choice stream `cs : Nat → Nat`: each draw consumes one stream value
and reduces it modulo the number of alternatives.  Wall-clock time
(`omp_get_wtime`) is modelled by an oracle giving the elapsed time observed
after each iteration.  The `USE_OPENMP` preprocessor flag is an explicit
`Bool` parameter (the repository's `gomoku.cpp` defines it).
-/

/-- The `State` template-parameter concept consumed by `MCTS::compute_move`
(spec §6), instantiated below by the Gomoku game.  `do_random_move` receives
the raw random draw instead of an engine.  `size` bounds the number of moves
a playout can make from a state (used as rollout fuel; the C++ loop runs to
termination directly).  `move_lt` is `std::less<Move>` (the `std::map` key
order) and `move_default` is the value-initialized `Move()` used to seed the
final selection loop. -/
structure Game (σ μ : Type) where
  player_to_move : σ → Int
  get_moves : σ → List μ
  do_move : σ → μ → σ
  do_random_move : σ → Nat → σ
  has_moves : σ → Bool
  get_result : σ → Int → Rat
  no_move : μ
  move_default : μ
  move_lt : μ → μ → Bool
  size : σ → Nat

/-- `MCTS::Node<State>`: the parent pointer is not represented (backpropagation
is performed on the way back up the recursive iteration below) and the
transient `UCT_score` cache is computed on demand by `UCT_score`. -/
inductive Node (μ : Type) : Type where
  | mk (move : μ) (player_to_move : Int) (wins : Rat) (visits : Nat)
       (moves : List μ) (children : List (Node μ)) : Node μ

def Node.move : Node μ → μ
  | .mk m _ _ _ _ _ => m

def Node.player_to_move : Node μ → Int
  | .mk _ p _ _ _ _ => p

def Node.wins : Node μ → Rat
  | .mk _ _ w _ _ _ => w

def Node.visits : Node μ → Nat
  | .mk _ _ _ v _ _ => v

def Node.moves : Node μ → List μ
  | .mk _ _ _ _ ms _ => ms

def Node.children : Node μ → List (Node μ)
  | .mk _ _ _ _ _ cs => cs

/-- The root-node constructor `Node(state)`: `move = State::no_move`, frontier
initialised from `state.get_moves()`. -/
def Node.mkRoot (g : Game σ μ) (state : σ) : Node μ :=
  .mk g.no_move (g.player_to_move state) 0 0 (g.get_moves state) []

/-- The child-node constructor `Node(state, move, parent)` (fields as stored:
`player_to_move` is read off the state passed in, which at the call site in
`compute_tree` is the state *after* the move was applied). -/
def Node.mkChild (g : Game σ μ) (mv : μ) (state : σ) : Node μ :=
  .mk mv (g.player_to_move state) 0 0 (g.get_moves state) []

/-- `Node::update(result)`: `visits++; wins += result`. -/
def Node.update (n : Node μ) (result : Rat) : Node μ :=
  .mk n.move n.player_to_move (n.wins + result) (n.visits + 1) n.moves n.children

/-- `Node::add_child(move, state)`, with the constructed child passed in:
appends to `children` and erases the first occurrence of the move from the
frontier. -/
def Node.add_child [DecidableEq μ] (n : Node μ) (c : Node μ) : Node μ :=
  .mk n.move n.player_to_move n.wins n.visits (n.moves.erase c.move)
    (n.children ++ [c])

/-- The per-child UCT score computed inside `Node::select_child_UCT`:
`wins / visits + sqrt(2 ln(parent.visits) / visits)`. -/
noncomputable def UCT_score (parentVisits : Nat) (c : Node μ) : Real :=
  (c.wins : Real) / (c.visits : Real) +
    Real.sqrt (2 * Real.log (parentVisits : Real) / (c.visits : Real))

/-- One comparison step of `std::max_element` with comparator
`a.score < b.score`: the current maximum is replaced only on a strictly
greater score, so the first of equal maxima survives. -/
noncomputable def pickMax (f : α → Real) (b c : α) : α :=
  if f b < f c then c else b

/-- `Node::select_child_UCT`, returning the index of the selected child
(the C++ returns a pointer; the functional model needs the position in order
to write the updated child back). -/
noncomputable def select_child_UCT_idx (n : Node μ) : Nat :=
  match n.children.enum with
  | [] => 0
  | e :: es => (es.foldl (pickMax (fun p => UCT_score n.visits p.2)) e).1

/-- `Node::select_child_UCT` as the selected child itself. -/
noncomputable def select_child_UCT (n : Node μ) : Option (Node μ) :=
  n.children.get? (select_child_UCT_idx n)

/-- `MCTS::ComputeOptions` with the constructor's default values.  `double`
fields are rationals. -/
structure ComputeOptions where
  number_of_threads : Int := 8
  number_of_repeat : Int := 100
  iterations_param1 : Int := 10
  iterations_param2 : Int := 1000
  max_iterations : Int := 10000
  top_n : Int := 1
  board_size : Int := 15
  max_time : Rat := -1
  verbose : Bool := false
  best_wins : Rat := 0
  best_visits : Int := 0
  quit : Bool := false

/-- The random playout `while (state.has_moves()) state.do_random_move(...)`.
`fuel` bounds the number of moves (the caller passes `g.size`, which by the
`Game` contract suffices); `k` is the position in the choice stream.  Returns
the final state and the advanced stream position. -/
def playout (g : Game σ μ) : Nat → (Nat → Nat) → Nat → σ → σ × Nat
  | 0, _, k, s => (s, k)
  | fuel + 1, cs, k, s =>
    if g.has_moves s then playout g fuel cs (k + 1) (g.do_random_move s (cs k))
    else (s, k)

/-- One iteration of the `compute_tree` loop body: select (descending via
`select_child_UCT`), expand (`get_untried_move` / `add_child`), simulate,
and backpropagate (each node on the walked path receives exactly one
`update` with `state.get_result(node->player_to_move)` of the final state).
The C++ walks parent pointers; here the updates happen while the recursion
unwinds.  `fuel` bounds the select-descent depth; the driver passes a bound
exceeding any possible tree height, so the `0` base case (which behaves like
a terminal leaf) is unreachable.  Returns the updated node, the advanced
choice-stream position, and the final simulated state. -/
noncomputable def mctsRound [DecidableEq μ] (g : Game σ μ) (cs : Nat → Nat) :
    Nat → Nat → σ → Node μ → Node μ × Nat × σ
  | 0, k, state, n =>
    let p := playout g (g.size state) cs k state
    (n.update (g.get_result p.1 n.player_to_move), p.2, p.1)
  | fuel + 1, k, state, n =>
    if n.moves.isEmpty && !n.children.isEmpty then
      -- select: descend into the UCT-chosen child, then update this node
      let ci := select_child_UCT_idx n
      match n.children.get? ci with
      | some c =>
        let r := mctsRound g cs fuel k (g.do_move state c.move) c
        let n' : Node μ := .mk n.move n.player_to_move n.wins n.visits n.moves
          (n.children.set ci r.1)
        (n'.update (g.get_result r.2.2 n'.player_to_move), r.2.1, r.2.2)
      | none =>
        -- unreachable: the selected index is always in range
        let p := playout g (g.size state) cs k state
        (n.update (g.get_result p.1 n.player_to_move), p.2, p.1)
    else if !n.moves.isEmpty then
      -- expand: `get_untried_move` draws uniformly from the frontier
      let mv := n.moves.getD (cs k % n.moves.length) g.no_move
      let s1 := g.do_move state mv
      let child := Node.mkChild g mv s1
      let p := playout g (g.size s1) cs (k + 1) s1
      let child' := child.update (g.get_result p.1 child.player_to_move)
      ((n.add_child child').update (g.get_result p.1 n.player_to_move), p.2, p.1)
    else
      -- terminal leaf of the game: no expansion, simulate and backpropagate
      let p := playout g (g.size state) cs k state
      (n.update (g.get_result p.1 n.player_to_move), p.2, p.1)

/-- The iteration loop of `compute_tree`
(`for (int iter = 1; iter <= max_iterations || max_iterations < 0; ++iter)`),
restricted to `max_iterations ≥ 0` (`remaining` counts the iterations still
allowed).  `oracle iter` is the elapsed wall-clock time
`omp_get_wtime() - start_time` observed at the end of iteration `iter`; the
guarded block and its `break` exist only when compiled with OpenMP. -/
noncomputable def treeLoop [DecidableEq μ] (g : Game σ μ) (useOpenmp : Bool)
    (opts : ComputeOptions) (oracle : Nat → Rat) (cs : Nat → Nat)
    (roundFuel : Nat) (root_state : σ) :
    Nat → Nat → Nat → Node μ → Node μ × Nat
  | 0, _, k, n => (n, k)
  | remaining + 1, iter, k, n =>
    let r := mctsRound g cs roundFuel k root_state n
    if useOpenmp ∧ (opts.verbose ∨ opts.max_time ≥ 0) ∧ oracle iter ≥ opts.max_time
    then (r.1, r.2.1)
    else treeLoop g useOpenmp opts oracle cs roundFuel root_state remaining
      (iter + 1) r.2.1 r.1

/-- `MCTS::compute_tree(root_state, options, initial_seed)`.  Without OpenMP,
a non-negative `max_time` throws (`ComputeOptions::max_time requires
OpenMP.`); errors are modelled with `Except`.  The model is defined only for
`max_iterations ≥ 0`: with a negative `max_iterations` the C++ loop has no
iteration bound (it can stop only via the OpenMP time check), which a total
model cannot mirror, so that case is mapped to a distinguished error the
theorems below never rely on.  The round fuel exceeds the tree height (at
most one level is added per iteration). -/
noncomputable def compute_tree [DecidableEq μ] (g : Game σ μ)
    (useOpenmp : Bool) (opts : ComputeOptions) (oracle : Nat → Rat)
    (cs : Nat → Nat) (root_state : σ) : Except String (Node μ) :=
  if opts.max_time ≥ 0 ∧ useOpenmp = false then
    .error "ComputeOptions::max_time requires OpenMP."
  else if opts.max_iterations < 0 then
    .error "model artifact: unbounded iteration count"
  else
    .ok (treeLoop g useOpenmp opts oracle cs
      (opts.max_iterations.toNat + g.size root_state + 2) root_state
      opts.max_iterations.toNat 1 0 (Node.mkRoot g root_state)).1

/-- One insertion into the merged root-children statistics
(`visits[move] += child->visits; wins[move] += child->wins;`).  The two
`std::map`s are keyed identically at all times and are modelled as one
association list kept sorted by the key comparator, matching `std::map`
iteration order. -/
def statsInsert (lt : μ → μ → Bool) (mv : μ) (v : Int) (w : Rat) :
    List (μ × Int × Rat) → List (μ × Int × Rat)
  | [] => [(mv, v, w)]
  | e :: rest =>
    if lt mv e.1 then (mv, v, w) :: e :: rest
    else if lt e.1 mv then e :: statsInsert lt mv v w rest
    else (e.1, e.2.1 + v, e.2.2 + w) :: rest

/-- The merge phase of `compute_move`: accumulate every root's direct
children into the per-move statistics, and sum the roots' visit counts into
`games_played`. -/
def mergeRoots (lt : μ → μ → Bool) (roots : List (Node μ)) :
    List (μ × Int × Rat) × Int :=
  roots.foldl
    (fun acc root =>
      (root.children.foldl
        (fun s c => statsInsert lt c.move (c.visits : Int) c.wins s) acc.1,
       acc.2 + (root.visits : Int)))
    ([], 0)

/-- The expected success rate assuming a uniform prior (Beta(1, 1)) computed
for one merged entry in the selection loop of `compute_move`:
`(wins + 1) / (visits + 2)` (`visits` is converted to `double`). -/
def expected_success_rate (e : μ × Int × Rat) : Rat :=
  (e.2.2 + 1) / ((e.2.1 : Rat) + 2)

/-- The body of the final selection loop of `compute_move`: keep the current
`(best_move, best_score)` unless this entry's expected success rate strictly
exceeds `best_score`. -/
def selStep (best : μ × Rat) (e : μ × Int × Rat) : μ × Rat :=
  if expected_success_rate e > best.2 then (e.1, expected_success_rate e)
  else best

/-- The final selection loop of `compute_move`: starting from
`best_score = -1` and a value-initialized move, take each move whose expected
success rate strictly exceeds the best seen so far. -/
def selectBest (move_default : μ) (stats : List (μ × Int × Rat)) : μ :=
  (stats.foldl selStep (move_default, (-1 : Rat))).1

/-- `MCTS::compute_move(root_state, options)`.  All worker threads receive
the same seed (the same choice stream `cs`); `oracles t` is worker `t`'s
elapsed-time observation sequence.  The result is instrumented with
`games_played` (the sum of the roots' visit counts, computed by the merge
loop); the short-circuit branch reports 0 games.  Thread scheduling plays no
role: each worker's tree depends only on its inputs, so the futures are
modelled by a sequential `mapM` that propagates a worker's exception exactly
as `future::get` rethrows it. -/
noncomputable def compute_move [DecidableEq μ] (g : Game σ μ)
    (useOpenmp : Bool) (opts : ComputeOptions) (oracles : Nat → Nat → Rat)
    (cs : Nat → Nat) (root_state : σ) : Except String (μ × Int) := do
  let moves := g.get_moves root_state
  if moves.length = 1 then
    return (moves.getD 0 g.no_move, 0)
  let job_options := { opts with verbose := false }
  let roots ← (List.range opts.number_of_threads.toNat).mapM
    (fun t => compute_tree g useOpenmp job_options (oracles t) cs root_state)
  let merged := mergeRoots g.move_lt roots
  return (selectBest g.move_default merged.1, merged.2)

/-- `GomokuState` (`src/gomoku/gomoku.h`).  The console/printing members and
label tables are I/O and are not modelled. -/
structure GomokuState where
  player_to_move : Int
  num_rows : Int
  num_cols : Int
  board_size : Int
  board : List (List Char)
  last_col : Int
  last_row : Int
  empty_places : List (Int × Int)

/-- `GomokuState::player_markers = { '.', 'X', 'O' }` (indexing the array at
any other value is undefined behaviour in the source; the model returns a
sentinel). -/
def player_markers (i : Int) : Char :=
  if i = 0 then '.' else if i = 1 then 'X' else if i = 2 then 'O' else '#'

/-- The `GomokuState(side_len)` constructor. -/
def GomokuState.init (side_len : Int) : GomokuState where
  player_to_move := 1
  num_rows := side_len
  num_cols := side_len
  board_size := side_len * side_len
  board := List.replicate side_len.toNat (List.replicate side_len.toNat '.')
  last_col := -1
  last_row := -1
  empty_places :=
    (List.range side_len.toNat).flatMap
      (fun i => (List.range side_len.toNat).map (fun j => ((i : Int), (j : Int))))

/-- `board[r][c]` with the source's bounds conditions made explicit: every
loop in `get_winner` tests `0 ≤ r < num_rows && 0 ≤ c < num_cols` before
dereferencing, so an out-of-bounds read never happens; the model returns a
sentinel distinct from every marker there, which stops the same scans. -/
def GomokuState.cell (s : GomokuState) (r c : Int) : Char :=
  if 0 ≤ r ∧ r < s.num_rows ∧ 0 ≤ c ∧ c < s.num_cols then
    (s.board.getD r.toNat []).getD c.toNat '#'
  else '#'

def setCell (b : List (List Char)) (r c : Nat) (ch : Char) : List (List Char) :=
  b.set r ((b.getD r []).set c ch)

/-- `GomokuState::do_move`: place the mover's marker, erase the move from
`empty_places` (`std::remove` erases every equal element), record it as the
last move and flip `player_to_move` to `3 - player_to_move`.  A write outside
the board is undefined behaviour in the source and leaves the board unchanged
here. -/
def GomokuState.do_move (s : GomokuState) (m : Int × Int) : GomokuState :=
  { s with
    board :=
      if 0 ≤ m.1 ∧ m.1 < s.num_rows ∧ 0 ≤ m.2 ∧ m.2 < s.num_cols then
        setCell s.board m.1.toNat m.2.toNat (player_markers s.player_to_move)
      else s.board
    empty_places := s.empty_places.filter (fun e => e ≠ m)
    last_row := m.1
    last_col := m.2
    player_to_move := 3 - s.player_to_move }

/-- One directional scan of `GomokuState::get_winner`: the number of
consecutive cells carrying `piece` strictly beyond `(r, c)` in direction
`(dr, dc)`.  The scan range generously covers the board; it is cut off by the
out-of-bounds sentinel exactly where the source's bounds test stops. -/
def GomokuState.countDir (s : GomokuState) (piece : Char) (r c dr dc : Int) : Nat :=
  (((List.range (s.num_rows + s.num_cols).toNat).map
      (fun i => s.cell (r + ((i : Int) + 1) * dr) (c + ((i : Int) + 1) * dc))).takeWhile
    (fun ch => ch == piece)).length

/-- `GomokuState::get_winner`: '.' before any move; otherwise check the four
lines through the last move for five in a row of its piece. -/
def GomokuState.get_winner (s : GomokuState) : Char :=
  if s.last_col < 0 then player_markers 0
  else
    let piece := s.cell s.last_row s.last_col
    if s.countDir piece s.last_row s.last_col 0 (-1) + 1 +
        s.countDir piece s.last_row s.last_col 0 1 ≥ 5 then piece
    else if s.countDir piece s.last_row s.last_col (-1) 0 + 1 +
        s.countDir piece s.last_row s.last_col 1 0 ≥ 5 then piece
    else if s.countDir piece s.last_row s.last_col (-1) (-1) + 1 +
        s.countDir piece s.last_row s.last_col 1 1 ≥ 5 then piece
    else if s.countDir piece s.last_row s.last_col 1 (-1) + 1 +
        s.countDir piece s.last_row s.last_col (-1) 1 ≥ 5 then piece
    else player_markers 0

/-- `GomokuState::get_moves`: empty once somebody has won, otherwise the
empty places. -/
def GomokuState.get_moves (s : GomokuState) : List (Int × Int) :=
  if s.get_winner ≠ player_markers 0 then [] else s.empty_places

/-- `GomokuState::has_moves`: false once somebody has won or the board is
full. -/
def GomokuState.has_moves (s : GomokuState) : Bool :=
  if s.get_winner ≠ player_markers 0 then false else !s.empty_places.isEmpty

/-- `GomokuState::get_result(current_player_to_move)` as written in the
source: 0.5 with no winner, 0.0 when the winner's marker is the queried
player's own marker, 1.0 otherwise. -/
def GomokuState.get_result (s : GomokuState) (current_player_to_move : Int) : Rat :=
  let winner := s.get_winner
  if winner = player_markers 0 then 1/2
  else if winner = player_markers current_player_to_move then 0
  else 1

/-- `GomokuState::do_random_move`: a uniformly-drawn element of
`empty_places`, the draw supplied by the choice stream. -/
def GomokuState.do_random_move (s : GomokuState) (r : Nat) : GomokuState :=
  s.do_move (s.empty_places.getD (r % s.empty_places.length) (-1, -1))

/-- The Gomoku instantiation of the search-engine template.  `size` is the
number of empty places, which bounds the length of every playout. -/
def gomokuGame : Game GomokuState (Int × Int) where
  player_to_move := GomokuState.player_to_move
  get_moves := GomokuState.get_moves
  do_move := GomokuState.do_move
  do_random_move := GomokuState.do_random_move
  has_moves := GomokuState.has_moves
  get_result := GomokuState.get_result
  no_move := (-1, -1)
  move_default := (0, 0)
  move_lt := fun a b => decide (a.1 < b.1 ∨ (a.1 = b.1 ∧ a.2 < b.2))
  size := fun s => s.empty_places.length

/-- A minimal conforming game used to exercise the engine-level theorems on
concrete inputs: the state counts the moves left, every position with
`s` moves left offers moves `0 … s-1`, any move removes one, and every
finished game is a draw. -/
def toyGame : Game Nat Nat where
  player_to_move := fun s => if s % 2 = 0 then 1 else 2
  get_moves := fun s => List.range s
  do_move := fun s _ => s - 1
  do_random_move := fun s _ => s - 1
  has_moves := fun s => decide (s ≠ 0)
  get_result := fun _ _ => 1/2
  no_move := 100
  move_default := 0
  move_lt := fun a b => decide (a < b)
  size := fun s => s

/-- Reading one move's aggregate out of the merged statistics (the value
`visits[move]` / `wins[move]` would hold after the merge; `(0, 0)` when the
move was never inserted). -/
def statsLookup [DecidableEq μ] (mv : μ) : List (μ × Int × Rat) → Int × Rat
  | [] => (0, 0)
  | e :: rest => if e.1 = mv then e.2 else statsLookup mv rest

/-- A concrete two-child node exercising the UCT-selection theorem. -/
def uctWitnessNode : Node Nat :=
  .mk 0 1 0 2 [] [.mk 5 2 (1/2) 1 [] [], .mk 7 2 0 1 [] []]

/-- A terminal 1×1 Gomoku position: the single cell is filled, so
`get_moves` is empty (no winner, board full). -/
def s11 : GomokuState := (GomokuState.init 1).do_move (0, 0)

/-- A terminal 5×5 Gomoku position in which player 1 ('X') has just
completed five in a row on row 0 (play alternates automatically inside
`do_move`, with 'O' answering on row 1). -/
def c2state : GomokuState :=
  [((0 : Int), (0 : Int)), (1, 0), (0, 1), (1, 1), (0, 2), (1, 2), (0, 3),
    (1, 3), (0, 4)].foldl GomokuState.do_move (GomokuState.init 5)

/-- Two concrete completed roots exercising the merge theorem: move 3 was
expanded under both roots, move 4 under the first only. -/
def mergeWitnessRoots : List (Node Nat) :=
  [.mk 0 1 (1/2) 2 [] [.mk 3 2 (1/2) 1 [] [], .mk 4 2 0 1 [] []],
   .mk 0 1 1 1 [] [.mk 3 2 1 1 [] []]]

@[simp] theorem Node.mk_move (m : μ) (p : Int) (w : Rat) (v : Nat) (ms : List μ)
    (cl : List (Node μ)) : (Node.mk m p w v ms cl).move = m := rfl

@[simp] theorem Node.mk_player (m : μ) (p : Int) (w : Rat) (v : Nat) (ms : List μ)
    (cl : List (Node μ)) : (Node.mk m p w v ms cl).player_to_move = p := rfl

@[simp] theorem Node.mk_wins (m : μ) (p : Int) (w : Rat) (v : Nat) (ms : List μ)
    (cl : List (Node μ)) : (Node.mk m p w v ms cl).wins = w := rfl

@[simp] theorem Node.mk_visits (m : μ) (p : Int) (w : Rat) (v : Nat) (ms : List μ)
    (cl : List (Node μ)) : (Node.mk m p w v ms cl).visits = v := rfl

@[simp] theorem Node.mk_moves (m : μ) (p : Int) (w : Rat) (v : Nat) (ms : List μ)
    (cl : List (Node μ)) : (Node.mk m p w v ms cl).moves = ms := rfl

@[simp] theorem Node.mk_children (m : μ) (p : Int) (w : Rat) (v : Nat) (ms : List μ)
    (cl : List (Node μ)) : (Node.mk m p w v ms cl).children = cl := rfl

@[simp] theorem Node.mkChild_move (g : Game σ μ) (mv : μ) (s : σ) :
    (Node.mkChild g mv s).move = mv := rfl

@[simp] theorem Node.update_move (n : Node μ) (r : Rat) : (n.update r).move = n.move := rfl

@[simp] theorem Node.update_player (n : Node μ) (r : Rat) :
    (n.update r).player_to_move = n.player_to_move := rfl

@[simp] theorem Node.update_wins (n : Node μ) (r : Rat) : (n.update r).wins = n.wins + r := rfl

@[simp] theorem Node.update_visits (n : Node μ) (r : Rat) : (n.update r).visits = n.visits + 1 := rfl

@[simp] theorem Node.update_moves (n : Node μ) (r : Rat) : (n.update r).moves = n.moves := rfl

@[simp] theorem Node.update_children (n : Node μ) (r : Rat) :
    (n.update r).children = n.children := rfl

@[simp] theorem Node.add_child_visits [DecidableEq μ] (n c : Node μ) :
    (n.add_child c).visits = n.visits := rfl

@[simp] theorem Node.add_child_moves [DecidableEq μ] (n c : Node μ) :
    (n.add_child c).moves = n.moves.erase c.move := rfl

@[simp] theorem Node.add_child_children [DecidableEq μ] (n c : Node μ) :
    (n.add_child c).children = n.children ++ [c] := rfl

@[simp] theorem Node.mkChild_player (g : Game σ μ) (mv : μ) (s : σ) :
    (Node.mkChild g mv s).player_to_move = g.player_to_move s := rfl

@[simp] theorem Node.mkChild_visits (g : Game σ μ) (mv : μ) (s : σ) :
    (Node.mkChild g mv s).visits = 0 := rfl

@[simp] theorem Node.mkChild_wins (g : Game σ μ) (mv : μ) (s : σ) :
    (Node.mkChild g mv s).wins = 0 := rfl

@[simp] theorem Node.mkRoot_visits (g : Game σ μ) (s : σ) : (Node.mkRoot g s).visits = 0 := rfl

@[simp] theorem Node.mkRoot_moves (g : Game σ μ) (s : σ) :
    (Node.mkRoot g s).moves = g.get_moves s := rfl

@[simp] theorem Node.mkRoot_children (g : Game σ μ) (s : σ) : (Node.mkRoot g s).children = [] := rfl

/-- `std::max_element` with the strict comparator keeps the running maximum
on ties, so the fold result is the *first* element of `x :: xs` attaining the
maximum value of `f`: everything before it scores strictly less and
everything after it scores at most as much. -/
theorem foldl_pickMax_first_max (f : α → Real) (xs : List α) :
    ∀ x : α, ∃ pre post,
      x :: xs = pre ++ xs.foldl (pickMax f) x :: post ∧
      (∀ z ∈ pre, f z < f (xs.foldl (pickMax f) x)) ∧
      (∀ z ∈ post, f z ≤ f (xs.foldl (pickMax f) x)) := by
  induction xs with
  | nil => exact fun x => ⟨[], [], rfl, by simp, by simp⟩
  | cons y ys ih =>
    intro x
    obtain ⟨pre, post, hdec, hpre, hpost⟩ := ih (pickMax f x y)
    have hfold : (y :: ys).foldl (pickMax f) x = ys.foldl (pickMax f) (pickMax f x y) := rfl
    by_cases h : f x < f y
    · have hp : pickMax f x y = y := if_pos h
      rw [hp] at hdec hpre hpost
      refine ⟨x :: pre, post, ?_, ?_, by simpa [hfold, hp] using hpost⟩
      · simpa [hfold, hp] using congrArg (x :: ·) hdec
      · intro z hz
        rcases List.mem_cons.1 hz with rfl | hz
        · -- the head of `pre ++ r :: post` is `y`; either it is the result or it
          -- lies in `pre`, and in both cases `f x < f result`
        
          rw [hfold, hp]
          cases pre with
          | nil =>
            have : y = ys.foldl (pickMax f) y := by simpa using congrArg (fun l => l.head?) hdec
            rw [← this]; exact h
          | cons a pre' =>
            have ha : a = y := (by simpa using congrArg (fun l => l.head?) hdec : y = a).symm
            have := hpre a (List.mem_cons_self a pre')
            rw [ha] at this
            exact h.trans this
        · simpa [hfold, hp] using hpre z hz
    · have hp : pickMax f x y = x := if_neg h
      rw [hp] at hdec hpre hpost
      cases pre with
      | nil =>
        have hr : ys.foldl (pickMax f) x = x := by
          have := congrArg (fun l => l.head?) hdec
          simpa using this.symm
        have hpost' : post = ys := by
          have := congrArg (fun l => l.tail) hdec
          simpa using this.symm
        refine ⟨[], y :: ys, by simp [hfold, hp, hr], by simp, ?_⟩
        intro z hz
        rcases List.mem_cons.1 hz with rfl | hz
        · rw [hfold, hp, hr]; exact le_of_not_lt h
        · rw [hfold, hp, hr]
          have := hpost z (by rwa [hpost'])
          rwa [hr] at this
      | cons a pre' =>
        have ha : a = x := (by simpa using congrArg (fun l => l.head?) hdec : x = a).symm
        have htail : ys = pre' ++ ys.foldl (pickMax f) x :: post := by
          have := congrArg (fun l => l.tail) hdec
          simpa using this
        refine ⟨x :: y :: pre', post, ?_, ?_, by simpa [hfold, hp] using hpost⟩
        · rw [hfold, hp]
          simpa using congrArg (fun l => x :: y :: l) htail
        · intro z hz
          have hx : f x < f (ys.foldl (pickMax f) x) := by
            have := hpre a (List.mem_cons_self a pre')
            rwa [ha] at this
          rcases List.mem_cons.1 hz with rfl | hz
          · rw [hfold, hp]; exact hx
          · rcases List.mem_cons.1 hz with rfl | hz
            · rw [hfold, hp]; exact lt_of_le_of_lt (le_of_not_lt h) hx
            · simpa [hfold, hp] using hpre z (by simp [hz])

/-- The `max_element` fold picks one of the candidates. -/
theorem foldl_pickMax_mem (f : α → Real) (xs : List α) :
    ∀ x : α, xs.foldl (pickMax f) x ∈ x :: xs := by
  intro x
  obtain ⟨pre, post, hdec, -, -⟩ := foldl_pickMax_first_max f xs x
  rw [hdec]
  exact List.mem_append.2 (Or.inr (List.mem_cons_self _ _))

/-- Characterization of `select_child_UCT` for a node with children: it
returns the first child attaining the maximal UCT score. -/
theorem select_child_UCT_spec (n : Node μ) (h : n.children ≠ []) :
    ∃ c pre post, select_child_UCT n = some c ∧
      n.children = pre ++ c :: post ∧
      (∀ x ∈ pre, UCT_score n.visits x < UCT_score n.visits c) ∧
      (∀ x ∈ post, UCT_score n.visits x ≤ UCT_score n.visits c) := by
  cases hl : n.children.enum with
  | nil =>
    have : n.children.length = 0 := by
      simpa using congrArg List.length hl
    exact absurd (List.length_eq_zero.1 this) h
  | cons e es =>
    obtain ⟨pre, post, hdec, hpre, hpost⟩ :=
      foldl_pickMax_first_max (fun p => UCT_score n.visits p.2) es e
    have hidx : select_child_UCT_idx n =
        (es.foldl (pickMax (fun p => UCT_score n.visits p.2)) e).1 := by
      unfold select_child_UCT_idx
      rw [hl]
    have henum : n.children.enum = pre ++
        es.foldl (pickMax (fun p => UCT_score n.visits p.2)) e :: post := by
      rw [hl]; exact hdec
    have hmem : es.foldl (pickMax (fun p => UCT_score n.visits p.2)) e ∈ n.children.enum := by
      rw [henum]
      exact List.mem_append.2 (Or.inr (List.mem_cons_self _ _))
    have hget : n.children[(es.foldl (pickMax (fun p => UCT_score n.visits p.2)) e).1]? =
        some (es.foldl (pickMax (fun p => UCT_score n.visits p.2)) e).2 := by
      apply List.mk_mem_enum_iff_getElem?.1
      simpa using hmem
    have hsel : select_child_UCT n =
        some (es.foldl (pickMax (fun p => UCT_score n.visits p.2)) e).2 := by
      unfold select_child_UCT
      rw [hidx, List.get?_eq_getElem?, hget]
    refine ⟨_, pre.map Prod.snd, post.map Prod.snd, hsel, ?_, ?_, ?_⟩
    · have hm := List.enum_map_snd n.children
      rw [henum] at hm
      rw [← hm]
      simp
    · intro x hx
      obtain ⟨p, hp, rfl⟩ := List.mem_map.1 hx
      exact hpre p hp
    · intro x hx
      obtain ⟨p, hp, rfl⟩ := List.mem_map.1 hx
      exact hpost p hp

/-- The selected child index is in range whenever there are children. -/
theorem select_child_UCT_idx_lt (n : Node μ) (h : n.children ≠ []) :
    select_child_UCT_idx n < n.children.length := by
  obtain ⟨c, pre, post, hsel, -, -, -⟩ := select_child_UCT_spec n h
  unfold select_child_UCT at hsel
  rw [List.get?_eq_getElem?] at hsel
  exact (List.getElem?_eq_some.1 hsel).1

/-- Claim C8: for a node with at least one child, all children having
positive visit counts, `select_child_UCT` returns a child maximizing
`wins/visits + sqrt(2 ln(parent.visits)/visits)`, ties broken in favor of
the first child in insertion order: every earlier child scores strictly
less, every later child scores at most as much. -/
theorem c8_select_uct (n : Node μ) (h : n.children ≠ [])
    (hv : ∀ c ∈ n.children, 0 < c.visits) :
    ∃ c pre post, select_child_UCT n = some c ∧
      n.children = pre ++ c :: post ∧
      (∀ x ∈ pre, UCT_score n.visits x < UCT_score n.visits c) ∧
      (∀ x ∈ post, UCT_score n.visits x ≤ UCT_score n.visits c) :=
  select_child_UCT_spec n h

theorem c8_witness :
    (uctWitnessNode.children ≠ [] ∧ ∀ c ∈ uctWitnessNode.children, 0 < c.visits) ∧
    ∃ c pre post, select_child_UCT uctWitnessNode = some c ∧
      uctWitnessNode.children = pre ++ c :: post ∧
      (∀ x ∈ pre, UCT_score uctWitnessNode.visits x < UCT_score uctWitnessNode.visits c) ∧
      (∀ x ∈ post, UCT_score uctWitnessNode.visits x ≤ UCT_score uctWitnessNode.visits c) :=
  ⟨⟨by simp [uctWitnessNode, Node.children], by decide⟩,
   c8_select_uct uctWitnessNode (by simp [uctWitnessNode, Node.children]) (by decide)⟩

/-- Running characterization of the selection fold: it either keeps the
accumulator (nothing strictly beat its score) or returns the first entry
strictly beating both the accumulator's score and every earlier rate. -/
theorem selStep_foldl_spec {μ : Type} (l : List (μ × Int × Rat)) :
    ∀ (m0 : μ) (s0 : Rat),
      (l.foldl selStep (m0, s0) = (m0, s0) ∧
        ∀ z ∈ l, expected_success_rate z ≤ s0) ∨
      (∃ pre r post, l = pre ++ r :: post ∧
        l.foldl selStep (m0, s0) = (r.1, expected_success_rate r) ∧
        s0 < expected_success_rate r ∧
        (∀ z ∈ pre, expected_success_rate z < expected_success_rate r) ∧
        (∀ z ∈ post, expected_success_rate z ≤ expected_success_rate r)) := by
  induction l with
  | nil =>
    intro m0 s0
    left
    exact ⟨rfl, by simp⟩
  | cons e rest ih =>
    intro m0 s0
    by_cases h : expected_success_rate e > s0
    · have hstep : (e :: rest).foldl selStep (m0, s0) =
          rest.foldl selStep (e.1, expected_success_rate e) := by
        rw [List.foldl_cons]
        congr 1
        simp [selStep, h]
      rcases ih e.1 (expected_success_rate e) with ⟨heq, hle⟩ |
        ⟨pre, r, post, hdec, heq, hgt, hpre, hpost⟩
      · right
        exact ⟨[], e, rest, rfl, by rw [hstep, heq], h, by simp, hle⟩
      · right
        refine ⟨e :: pre, r, post, by simp [hdec], by rw [hstep, heq],
          lt_trans h hgt, ?_, hpost⟩
        intro z hz
        rcases List.mem_cons.1 hz with rfl | hz
        · exact hgt
        · exact hpre z hz
    · have hstep : (e :: rest).foldl selStep (m0, s0) =
          rest.foldl selStep (m0, s0) := by
        rw [List.foldl_cons]
        congr 1
        simp [selStep, h]
      rcases ih m0 s0 with ⟨heq, hle⟩ | ⟨pre, r, post, hdec, heq, hgt, hpre, hpost⟩
      · left
        refine ⟨by rw [hstep, heq], ?_⟩
        intro z hz
        rcases List.mem_cons.1 hz with rfl | hz
        · exact le_of_not_lt h
        · exact hle z hz
      · right
        refine ⟨e :: pre, r, post, by simp [hdec], by rw [hstep, heq], hgt, ?_, hpost⟩
        intro z hz
        rcases List.mem_cons.1 hz with rfl | hz
        · exact lt_of_le_of_lt (le_of_not_lt h) hgt
        · exact hpre z hz

/-- Claim C7: on nonempty aggregated statistics whose visit and win totals
are nonnegative (as all merged statistics are), the final selection computes
`(wins + 1) / (visits + 2)` per move and returns the first entry, in the
aggregation mapping's iteration order, attaining the strictly greatest
expected success rate: every earlier entry rates strictly lower and every
later entry rates no higher.  Determinism is immediate: `selectBest` is a
pure function of the statistics. -/
theorem c7_selection {μ : Type} (d : μ) (stats : List (μ × Int × Rat))
    (hne : stats ≠ [])
    (hv : ∀ e ∈ stats, 0 ≤ e.2.1) (hw : ∀ e ∈ stats, 0 ≤ e.2.2) :
    ∃ pre r post, stats = pre ++ r :: post ∧
      selectBest d stats = r.1 ∧
      (∀ z ∈ pre, expected_success_rate z < expected_success_rate r) ∧
      (∀ z ∈ post, expected_success_rate z ≤ expected_success_rate r) := by
  have hpos : ∀ e ∈ stats, (-1 : Rat) < expected_success_rate e := by
    intro e he
    have h1 : (0 : Rat) < e.2.2 + 1 := by linarith [hw e he]
    have h2 : (0 : Rat) < (e.2.1 : Rat) + 2 := by
      have : (0 : Rat) ≤ (e.2.1 : Rat) := by exact_mod_cast hv e he
      linarith
    have : (0 : Rat) < expected_success_rate e := div_pos h1 h2
    linarith
  rcases selStep_foldl_spec stats d (-1) with ⟨heq, hle⟩ |
    ⟨pre, r, post, hdec, heq, -, hpre, hpost⟩
  · cases stats with
    | nil => exact absurd rfl hne
    | cons e rest =>
      have := hle e (List.mem_cons_self e rest)
      have := hpos e (List.mem_cons_self e rest)
      linarith
  · exact ⟨pre, r, post, hdec, by rw [selectBest, heq], hpre, hpost⟩

theorem c7_witness :
    (([((1 : Nat), (2 : Int), (1 : Rat)), (2, 1, 0)] : List (Nat × Int × Rat)) ≠ [] ∧
      (∀ e ∈ ([((1 : Nat), (2 : Int), (1 : Rat)), (2, 1, 0)] : List (Nat × Int × Rat)), 0 ≤ e.2.1) ∧
      (∀ e ∈ ([((1 : Nat), (2 : Int), (1 : Rat)), (2, 1, 0)] : List (Nat × Int × Rat)), 0 ≤ e.2.2)) ∧
    ∃ pre r post,
      ([((1 : Nat), (2 : Int), (1 : Rat)), (2, 1, 0)] : List (Nat × Int × Rat)) = pre ++ r :: post ∧
      selectBest 0 [((1 : Nat), (2 : Int), (1 : Rat)), (2, 1, 0)] = r.1 ∧
      (∀ z ∈ pre, expected_success_rate z < expected_success_rate r) ∧
      (∀ z ∈ post, expected_success_rate z ≤ expected_success_rate r) :=
  ⟨⟨by simp, by decide, by decide⟩,
   c7_selection 0 [((1 : Nat), (2 : Int), (1 : Rat)), (2, 1, 0)] (by simp)
     (by decide) (by decide)⟩

/-- A move absent from the statistics looks up as `(0, 0)`. -/
theorem statsLookup_eq_zero [DecidableEq μ] (m : μ) :
    ∀ s : List (μ × Int × Rat), (∀ e ∈ s, e.1 ≠ m) → statsLookup m s = (0, 0)
  | [], _ => rfl
  | e :: rest, h => by
    have he : e.1 ≠ m := h e (List.mem_cons_self e rest)
    simp only [statsLookup, if_neg he]
    exact statsLookup_eq_zero m rest (fun z hz => h z (List.mem_cons_of_mem e hz))

/-- Every key present after an insertion was the inserted key or was already
present. -/
theorem statsInsert_keys (lt : μ → μ → Bool) (mv : μ) (v : Int) (w : Rat) :
    ∀ s : List (μ × Int × Rat), ∀ z ∈ statsInsert lt mv v w s,
      z.1 = mv ∨ ∃ e ∈ s, z.1 = e.1
  | [], z, hz => by
    simp only [statsInsert, List.mem_singleton] at hz
    exact Or.inl (by rw [hz])
  | e :: rest, z, hz => by
    by_cases h1 : lt mv e.1
    · simp only [statsInsert, if_pos h1] at hz
      rcases List.mem_cons.1 hz with rfl | hz
      · exact Or.inl rfl
      · rcases List.mem_cons.1 hz with rfl | hz
        · exact Or.inr ⟨z, List.mem_cons_self z rest, rfl⟩
        · exact Or.inr ⟨z, List.mem_cons_of_mem e hz, rfl⟩
    · by_cases h2 : lt e.1 mv
      · simp only [statsInsert, if_neg h1, if_pos h2] at hz
        rcases List.mem_cons.1 hz with rfl | hz
        · exact Or.inr ⟨z, List.mem_cons_self z rest, rfl⟩
        · rcases statsInsert_keys lt mv v w rest z hz with h | ⟨e', he', hk⟩
          · exact Or.inl h
          · exact Or.inr ⟨e', List.mem_cons_of_mem e he', hk⟩
      · simp only [statsInsert, if_neg h1, if_neg h2] at hz
        rcases List.mem_cons.1 hz with rfl | hz
        · exact Or.inr ⟨e, List.mem_cons_self e rest, rfl⟩
        · exact Or.inr ⟨z, List.mem_cons_of_mem e hz, rfl⟩

/-- Insertion preserves strict sortedness by the key comparator. -/
theorem statsInsert_pairwise (lt : μ → μ → Bool)
    (htrans : ∀ a b c, lt a b = true → lt b c = true → lt a c = true)
    (hconn : ∀ a b, lt a b = false → lt b a = false → a = b)
    (mv : μ) (v : Int) (w : Rat) :
    ∀ s : List (μ × Int × Rat),
      s.Pairwise (fun a b => lt a.1 b.1 = true) →
      (statsInsert lt mv v w s).Pairwise (fun a b => lt a.1 b.1 = true)
  | [], _ => List.pairwise_singleton _ _
  | e :: rest, hs => by
    obtain ⟨hhead, htail⟩ := List.pairwise_cons.1 hs
    by_cases h1 : lt mv e.1
    · simp only [statsInsert, if_pos h1]
      refine List.pairwise_cons.2 ⟨?_, hs⟩
      intro z hz
      rcases List.mem_cons.1 hz with rfl | hz
      · exact h1
      · exact htrans _ _ _ h1 (hhead z hz)
    · by_cases h2 : lt e.1 mv
      · simp only [statsInsert, if_neg h1, if_pos h2]
        refine List.pairwise_cons.2 ⟨?_, statsInsert_pairwise lt htrans hconn mv v w rest htail⟩
        intro z hz
        rcases statsInsert_keys lt mv v w rest z hz with hk | ⟨e', he', hk⟩
        · rw [hk]; exact h2
        · rw [hk]; exact hhead e' he'
      · simp only [statsInsert, if_neg h1, if_neg h2]
        exact List.pairwise_cons.2 ⟨hhead, htail⟩

/-- How an insertion changes one move's aggregate: the inserted move's entry
grows by `(v, w)`, every other entry is unchanged.  Requires the statistics
to be key-sorted (as they always are) and the comparator to be a strict
total order. -/
theorem statsLookup_insert [DecidableEq μ] (lt : μ → μ → Bool)
    (hirr : ∀ a, lt a a = false)
    (htrans : ∀ a b c, lt a b = true → lt b c = true → lt a c = true)
    (hconn : ∀ a b, lt a b = false → lt b a = false → a = b)
    (m mv : μ) (v : Int) (w : Rat) :
    ∀ s : List (μ × Int × Rat),
      s.Pairwise (fun a b => lt a.1 b.1 = true) →
      statsLookup m (statsInsert lt mv v w s) =
        if m = mv then ((statsLookup m s).1 + v, (statsLookup m s).2 + w)
        else statsLookup m s
  | [], _ => by
    by_cases hm : m = mv
    · subst hm
      simp [statsInsert, statsLookup]
    · have hm' : mv ≠ m := fun h => hm h.symm
      simp [statsInsert, statsLookup, hm, hm']
  | e :: rest, hs => by
    obtain ⟨hhead, htail⟩ := List.pairwise_cons.1 hs
    by_cases h1 : lt mv e.1
    · simp only [statsInsert, if_pos h1]
      by_cases hm : m = mv
      · subst hm
        have hz : statsLookup m (e :: rest) = (0, 0) := by
          apply statsLookup_eq_zero
          intro z hz
          rcases List.mem_cons.1 hz with rfl | hz
          · intro hk
            rw [hk] at h1
            rw [hirr] at h1
            exact Bool.false_ne_true h1
          · intro hk
            have hlt := htrans _ _ _ h1 (hhead z hz)
            rw [hk] at hlt
            rw [hirr] at hlt
            exact Bool.false_ne_true hlt
        rw [if_pos rfl, hz]
        simp [statsLookup]
      · have hm' : mv ≠ m := fun h => hm h.symm
        simp [statsLookup, hm, hm']
    · by_cases h2 : lt e.1 mv
      · simp only [statsInsert, if_neg h1, if_pos h2]
        by_cases he : e.1 = m
        · have hm : m ≠ mv := by
            intro hm
            rw [he, hm] at h2
            rw [hirr] at h2
            exact Bool.false_ne_true h2
          simp [statsLookup, he, hm]
        · have ih := statsLookup_insert lt hirr htrans hconn m mv v w rest htail
          simp [statsLookup, he, ih]
      · have hk : mv = e.1 :=
          hconn _ _ (Bool.eq_false_iff.mpr h1) (Bool.eq_false_iff.mpr h2)
        simp only [statsInsert, if_neg h1, if_neg h2]
        by_cases he : e.1 = m
        · have hm : m = mv := by rw [hk, he]
          subst hm
          simp [statsLookup, he]
        · have hm : m ≠ mv := by rw [hk]; exact fun h => he h.symm
          simp [statsLookup, he, hm]

/-- Folding a root's children into sorted statistics preserves sortedness. -/
theorem mergeChildren_pairwise [DecidableEq μ] (lt : μ → μ → Bool)
    (htrans : ∀ a b c, lt a b = true → lt b c = true → lt a c = true)
    (hconn : ∀ a b, lt a b = false → lt b a = false → a = b) :
    ∀ (cl : List (Node μ)) (acc : List (μ × Int × Rat)),
      acc.Pairwise (fun a b => lt a.1 b.1 = true) →
      (cl.foldl (fun s c => statsInsert lt c.move (c.visits : Int) c.wins s)
        acc).Pairwise (fun a b => lt a.1 b.1 = true)
  | [], _, h => h
  | c :: cl', acc, h =>
    mergeChildren_pairwise lt htrans hconn cl' _
      (statsInsert_pairwise lt htrans hconn _ _ _ acc h)

/-- Folding a root's children over sorted statistics adds, for each move, the
summed visits and wins of exactly the children carrying that move. -/
theorem mergeChildren_lookup [DecidableEq μ] (lt : μ → μ → Bool)
    (hirr : ∀ a, lt a a = false)
    (htrans : ∀ a b c, lt a b = true → lt b c = true → lt a c = true)
    (hconn : ∀ a b, lt a b = false → lt b a = false → a = b) (m : μ) :
    ∀ (cl : List (Node μ)) (acc : List (μ × Int × Rat)),
      acc.Pairwise (fun a b => lt a.1 b.1 = true) →
      statsLookup m
          (cl.foldl (fun s c => statsInsert lt c.move (c.visits : Int) c.wins s) acc) =
        ((statsLookup m acc).1 +
          ((cl.filter (fun c => c.move = m)).map (fun c => (c.visits : Int))).sum,
         (statsLookup m acc).2 +
          ((cl.filter (fun c => c.move = m)).map Node.wins).sum)
  | [], acc, _ => by simp
  | c :: cl', acc, h => by
    have ih := mergeChildren_lookup lt hirr htrans hconn m cl'
      (statsInsert lt c.move (c.visits : Int) c.wins acc)
      (statsInsert_pairwise lt htrans hconn _ _ _ acc h)
    have hins := statsLookup_insert lt hirr htrans hconn m c.move
      (c.visits : Int) c.wins acc h
    rw [List.foldl_cons, ih, hins]
    by_cases hc : c.move = m
    · rw [if_pos hc.symm]
      refine Prod.ext ?_ ?_ <;> simp [List.filter_cons, hc, add_assoc]
    · rw [if_neg (fun hmc => hc hmc.symm)]
      refine Prod.ext ?_ ?_ <;> simp [List.filter_cons, hc]

/-- Folding completed roots into the accumulator adds, for each move, that
move's direct-child totals across the roots, and adds every root's visit
count to `games_played`. -/
theorem mergeRoots_fold [DecidableEq μ] (lt : μ → μ → Bool)
    (hirr : ∀ a, lt a a = false)
    (htrans : ∀ a b c, lt a b = true → lt b c = true → lt a c = true)
    (hconn : ∀ a b, lt a b = false → lt b a = false → a = b) (m : μ) :
    ∀ (roots : List (Node μ)) (acc : List (μ × Int × Rat) × Int),
      acc.1.Pairwise (fun a b => lt a.1 b.1 = true) →
      statsLookup m
          (roots.foldl
            (fun acc root =>
              (root.children.foldl
                (fun s c => statsInsert lt c.move (c.visits : Int) c.wins s) acc.1,
               acc.2 + (root.visits : Int))) acc).1 =
        ((statsLookup m acc.1).1 +
          (roots.map (fun r =>
            ((r.children.filter (fun c => c.move = m)).map
              (fun c => (c.visits : Int))).sum)).sum,
         (statsLookup m acc.1).2 +
          (roots.map (fun r =>
            ((r.children.filter (fun c => c.move = m)).map Node.wins).sum)).sum) ∧
      (roots.foldl
        (fun acc root =>
          (root.children.foldl
            (fun s c => statsInsert lt c.move (c.visits : Int) c.wins s) acc.1,
           acc.2 + (root.visits : Int))) acc).2 =
        acc.2 + (roots.map (fun r => (r.visits : Int))).sum
  | [], acc, _ => by simp
  | root :: roots', acc, h => by
    have hpw := mergeChildren_pairwise lt htrans hconn root.children acc.1 h
    have ih := mergeRoots_fold lt hirr htrans hconn m roots'
      (root.children.foldl
        (fun s c => statsInsert lt c.move (c.visits : Int) c.wins s) acc.1,
       acc.2 + (root.visits : Int)) hpw
    have hch := mergeChildren_lookup lt hirr htrans hconn m root.children acc.1 h
    rw [List.foldl_cons]
    constructor
    · rw [ih.1]
      rw [hch]
      refine Prod.ext ?_ ?_ <;> simp [add_assoc]
    · rw [ih.2]
      simp [add_assoc]

/-- Claim C6: after a coordinator run over the completed trees, every move's
merged statistics equal the sums of that move's direct-child visit counts and
win totals across all roots (a root without a child for the move contributes
nothing), and `games_played` is the sum of the roots' visit counts.  The key
comparator is assumed to be a strict total order, as `std::less` over the
move type is. -/
theorem c6_merge [DecidableEq μ] (lt : μ → μ → Bool)
    (hirr : ∀ a, lt a a = false)
    (htrans : ∀ a b c, lt a b = true → lt b c = true → lt a c = true)
    (hconn : ∀ a b, lt a b = false → lt b a = false → a = b)
    (roots : List (Node μ)) (m : μ) :
    statsLookup m (mergeRoots lt roots).1 =
      ((roots.map (fun r =>
          ((r.children.filter (fun c => c.move = m)).map
            (fun c => (c.visits : Int))).sum)).sum,
       (roots.map (fun r =>
          ((r.children.filter (fun c => c.move = m)).map Node.wins).sum)).sum) ∧
    (mergeRoots lt roots).2 = (roots.map (fun r => (r.visits : Int))).sum := by
  have h := mergeRoots_fold lt hirr htrans hconn m roots ([], 0) (List.Pairwise.nil)
  rw [mergeRoots]
  refine ⟨?_, ?_⟩
  · rw [h.1]
    refine Prod.ext ?_ ?_ <;> simp [statsLookup]
  · rw [h.2]
    simp

theorem c6_witness :
    ((∀ a : Nat, (fun a b : Nat => decide (a < b)) a a = false) ∧
     (∀ a b c : Nat, (fun a b : Nat => decide (a < b)) a b = true →
        (fun a b : Nat => decide (a < b)) b c = true →
        (fun a b : Nat => decide (a < b)) a c = true) ∧
     (∀ a b : Nat, (fun a b : Nat => decide (a < b)) a b = false →
        (fun a b : Nat => decide (a < b)) b a = false → a = b)) ∧
    statsLookup 3 (mergeRoots (fun a b : Nat => decide (a < b)) mergeWitnessRoots).1 =
      ((mergeWitnessRoots.map (fun r =>
          ((r.children.filter (fun c => c.move = 3)).map
            (fun c => (c.visits : Int))).sum)).sum,
       (mergeWitnessRoots.map (fun r =>
          ((r.children.filter (fun c => c.move = 3)).map Node.wins).sum)).sum) ∧
    (mergeRoots (fun a b : Nat => decide (a < b)) mergeWitnessRoots).2 =
      (mergeWitnessRoots.map (fun r => (r.visits : Int))).sum :=
  ⟨⟨fun a => by simp, fun a b c hab hbc => by simp at hab hbc ⊢; omega,
    fun a b hab hba => by simp at hab hba; omega⟩,
   (c6_merge (fun a b : Nat => decide (a < b)) (fun a => by simp)
     (fun a b c hab hbc => by simp at hab hbc ⊢; omega)
     (fun a b hab hba => by simp at hab hba; omega) mergeWitnessRoots 3).1,
   (c6_merge (fun a b : Nat => decide (a < b)) (fun a => by simp)
     (fun a b c hab hbc => by simp at hab hbc ⊢; omega)
     (fun a b hab hba => by simp at hab hba; omega) mergeWitnessRoots 3).2⟩

/-- Every iteration gives the entered node exactly one `update`: its visit
count grows by exactly one, whatever path the iteration takes below it. -/
theorem mctsRound_visits [DecidableEq μ] (g : Game σ μ) (cs : Nat → Nat) :
    ∀ (fuel k : Nat) (state : σ) (n : Node μ),
      (mctsRound g cs fuel k state n).1.visits = n.visits + 1
  | 0, k, state, n => by
    cases n
    simp [mctsRound, Node.update, Node.visits, Node.player_to_move]
  | fuel + 1, k, state, n => by
    cases n
    simp only [mctsRound]
    split
    · split <;>
        simp [Node.update, Node.visits, Node.player_to_move, Node.moves,
          Node.children, Node.move, Node.wins]
    · split <;>
        simp [Node.update, Node.add_child, Node.mkChild, Node.visits,
          Node.player_to_move, Node.moves, Node.children, Node.move, Node.wins]

/-- Likewise, each iteration adds exactly the backpropagated result (the
final simulated state evaluated from the entered node's stored
`player_to_move`) to the entered node's win total. -/
theorem mctsRound_wins [DecidableEq μ] (g : Game σ μ) (cs : Nat → Nat) :
    ∀ (fuel k : Nat) (state : σ) (n : Node μ),
      (mctsRound g cs fuel k state n).1.wins =
        n.wins + g.get_result (mctsRound g cs fuel k state n).2.2 n.player_to_move
  | 0, k, state, n => by
    cases n
    simp [mctsRound, Node.update, Node.wins, Node.player_to_move]
  | fuel + 1, k, state, n => by
    cases n
    simp only [mctsRound]
    split
    · split <;>
        simp [Node.update, Node.wins, Node.player_to_move, Node.moves,
          Node.children, Node.move, Node.visits]
    · split <;>
        simp [Node.update, Node.add_child, Node.mkChild, Node.wins,
          Node.player_to_move, Node.moves, Node.children, Node.move, Node.visits]

/-- Replacing the `i`-th element changes a mapped sum by the difference of
the images. -/
theorem sum_map_visits_set : ∀ (l : List (Node μ)) (i : Nat) (x c : Node μ),
    l[i]? = some c →
    ((l.set i x).map Node.visits).sum + c.visits = (l.map Node.visits).sum + x.visits
  | [], i, x, c, h => by simp at h
  | a :: l', 0, x, c, h => by
    have ha : a = c := by simpa using h
    subst ha
    simp
    omega
  | a :: l', i + 1, x, c, h => by
    have h' : l'[i]? = some c := by simpa using h
    have ih := sum_map_visits_set l' i x c h'
    simp only [List.set_cons_succ, List.map_cons, List.sum_cons]
    omega

/-- One iteration preserves the two structural root invariants: the frontier
and the children together still cover at least one move, and the node's visit
count still equals the sum of its children's visit counts (each iteration
descends through exactly one child, or creates one). -/
theorem mctsRound_inv [DecidableEq μ] (g : Game σ μ) (cs : Nat → Nat)
    (fuel k : Nat) (state : σ) (n : Node μ)
    (hcnt : 1 ≤ n.moves.length + n.children.length)
    (hsum : n.visits = (n.children.map Node.visits).sum) :
    1 ≤ (mctsRound g cs (fuel + 1) k state n).1.moves.length +
        (mctsRound g cs (fuel + 1) k state n).1.children.length ∧
    (mctsRound g cs (fuel + 1) k state n).1.visits =
      ((mctsRound g cs (fuel + 1) k state n).1.children.map Node.visits).sum := by
  by_cases hg1 : (n.moves.isEmpty && !n.children.isEmpty) = true
  · -- select branch
    have hcne : n.children ≠ [] := by
      have h2 := (Bool.and_eq_true _ _ ▸ hg1).2
      rw [Bool.not_eq_true'] at h2
      exact List.isEmpty_eq_false.1 h2
    have hlt := select_child_UCT_idx_lt n hcne
    have hget : n.children[select_child_UCT_idx n]? =
        some (n.children.get ⟨select_child_UCT_idx n, hlt⟩) := by
      rw [List.getElem?_eq_getElem hlt]
      simp
    have hget' : n.children.get? (select_child_UCT_idx n) =
        some (n.children.get ⟨select_child_UCT_idx n, hlt⟩) := by
      rw [List.get?_eq_getElem?]
      exact hget
    have hchild := mctsRound_visits g cs fuel k
      (g.do_move state (n.children.get ⟨select_child_UCT_idx n, hlt⟩).move)
      (n.children.get ⟨select_child_UCT_idx n, hlt⟩)
    have hset := sum_map_visits_set n.children (select_child_UCT_idx n)
      (mctsRound g cs fuel k
        (g.do_move state (n.children.get ⟨select_child_UCT_idx n, hlt⟩).move)
        (n.children.get ⟨select_child_UCT_idx n, hlt⟩)).1
      (n.children.get ⟨select_child_UCT_idx n, hlt⟩) hget
    simp only [mctsRound, hg1, if_true, hget']
    simp only [List.map_set] at hset
    simp only [List.get_eq_getElem] at hset hchild
    constructor
    · simp
      omega
    · simp
      omega
  · by_cases hg2 : (!n.moves.isEmpty) = true
    · -- expand branch
      have hmne : n.moves ≠ [] := by
        rw [Bool.not_eq_true'] at hg2
        exact List.isEmpty_eq_false.1 hg2
      have hlen : 0 < n.moves.length := List.length_pos.2 hmne
      have hidx : cs k % n.moves.length < n.moves.length := Nat.mod_lt _ hlen
      have hmem : n.moves.getD (cs k % n.moves.length) g.no_move ∈ n.moves := by
        rw [List.getD_eq_getElem _ _ hidx]
        exact List.getElem_mem hidx
      have herase :
          (n.moves.erase (n.moves.getD (cs k % n.moves.length) g.no_move)).length =
            n.moves.length - 1 := List.length_erase_of_mem hmem
      simp only [List.getD_eq_getElem?_getD] at herase
      simp only [mctsRound, hg1, hg2, if_false, if_true, Bool.false_eq_true]
      constructor
      · simp [herase]
        omega
      · simp
        omega
    · -- terminal branch: excluded at the root by the covering invariant
      exfalso
      have hme : n.moves = [] := by
        rw [Bool.not_eq_true', List.isEmpty_eq_false] at hg2
        exact not_not.1 hg2
      have hce : n.children = [] := by
        rcases Bool.and_eq_false_iff.1 (Bool.eq_false_iff.mpr hg1) with h | h
        · exact absurd (List.isEmpty_iff.2 hme) (by rw [h]; exact Bool.false_ne_true)
        · have h' : n.children.isEmpty = true := by simpa using h
          exact List.isEmpty_iff.1 h'
      rw [hme, hce] at hcnt
      simp at hcnt

/-- The loop of `compute_tree` preserves the root invariants, whether it
stops by exhausting the iteration budget or by the OpenMP time check. -/
theorem treeLoop_inv [DecidableEq μ] (g : Game σ μ) (useOpenmp : Bool)
    (opts : ComputeOptions) (oracle : Nat → Rat) (cs : Nat → Nat) (rf : Nat)
    (root_state : σ) :
    ∀ (remaining iter k : Nat) (n : Node μ),
      1 ≤ n.moves.length + n.children.length →
      n.visits = (n.children.map Node.visits).sum →
      1 ≤ (treeLoop g useOpenmp opts oracle cs (rf + 1) root_state remaining
            iter k n).1.moves.length +
          (treeLoop g useOpenmp opts oracle cs (rf + 1) root_state remaining
            iter k n).1.children.length ∧
      (treeLoop g useOpenmp opts oracle cs (rf + 1) root_state remaining
          iter k n).1.visits =
        ((treeLoop g useOpenmp opts oracle cs (rf + 1) root_state remaining
            iter k n).1.children.map Node.visits).sum
  | 0, iter, k, n, hcnt, hsum => by
    simpa [treeLoop] using ⟨hcnt, hsum⟩
  | remaining + 1, iter, k, n, hcnt, hsum => by
    have h := mctsRound_inv g cs rf k root_state n hcnt hsum
    simp only [treeLoop]
    split
    · exact h
    · exact treeLoop_inv g useOpenmp opts oracle cs rf root_state remaining
        (iter + 1) _ _ h.1 h.2

/-- Claim C10: for a non-terminal root position, any completed tree-build run
distributes the root's visits exactly over its direct children: the sum of
the children's visit counts equals the root's visit count, because every
iteration's backpropagation path passes through exactly one direct child of
the root (or creates one). -/
theorem c10_root_children_visits [DecidableEq μ] (g : Game σ μ)
    (useOpenmp : Bool) (opts : ComputeOptions) (oracle : Nat → Rat)
    (cs : Nat → Nat) (root_state : σ)
    (hmoves : g.get_moves root_state ≠ [])
    (hiter : 0 ≤ opts.max_iterations)
    (htime : opts.max_time < 0 ∨ useOpenmp = true) :
    ∃ t, compute_tree g useOpenmp opts oracle cs root_state = .ok t ∧
      (t.children.map Node.visits).sum = t.visits := by
  have h1 : ¬(opts.max_time ≥ 0 ∧ useOpenmp = false) := by
    rcases htime with h | h
    · exact fun hc => absurd hc.1 (not_le.2 h)
    · intro hc
      rw [h] at hc
      exact Bool.noConfusion hc.2
  have h2 : ¬(opts.max_iterations < 0) := not_lt.2 hiter
  have hroot1 : 1 ≤ (Node.mkRoot g root_state).moves.length +
      (Node.mkRoot g root_state).children.length := by
    simp [Node.mkRoot]
    exact List.length_pos.2 hmoves
  have hroot2 : (Node.mkRoot g root_state).visits =
      ((Node.mkRoot g root_state).children.map Node.visits).sum := by
    simp [Node.mkRoot]
  have hinv := treeLoop_inv g useOpenmp opts oracle cs
    (opts.max_iterations.toNat + g.size root_state + 1) root_state
    opts.max_iterations.toNat 1 0 (Node.mkRoot g root_state) hroot1 hroot2
  exact ⟨(treeLoop g useOpenmp opts oracle cs
      (opts.max_iterations.toNat + g.size root_state + 2) root_state
      opts.max_iterations.toNat 1 0 (Node.mkRoot g root_state)).1,
    by rw [compute_tree, if_neg h1, if_neg h2], hinv.2.symm⟩

theorem c10_witness :
    (toyGame.get_moves 2 ≠ [] ∧
      (0 : Int) ≤ ({ max_iterations := 1, max_time := -1 } : ComputeOptions).max_iterations ∧
      (({ max_iterations := 1, max_time := -1 } : ComputeOptions).max_time < 0 ∨ false = true)) ∧
    ∃ t, compute_tree toyGame false { max_iterations := 1, max_time := -1 }
        (fun _ => 0) (fun _ => 0) 2 = .ok t ∧
      (t.children.map Node.visits).sum = t.visits :=
  ⟨⟨by decide, by decide, Or.inl (by decide)⟩,
   c10_root_children_visits toyGame false { max_iterations := 1, max_time := -1 }
     (fun _ => 0) (fun _ => 0) 2 (by decide) (by decide) (Or.inl (by decide))⟩

/-- Claim C4: a root position with exactly one legal move short-circuits:
`compute_move` returns that move immediately, with no simulations run and no
worker tree built (the instrumented games count is 0), for every
configuration, choice stream and time oracle. -/
theorem c4_single_move_short_circuit [DecidableEq μ] (g : Game σ μ)
    (useOpenmp : Bool) (opts : ComputeOptions) (oracles : Nat → Nat → Rat)
    (cs : Nat → Nat) (root_state : σ) (m : μ)
    (h : g.get_moves root_state = [m]) :
    compute_move g useOpenmp opts oracles cs root_state = .ok (m, 0) := by
  simp [compute_move, h]
  rfl

theorem c4_witness :
    toyGame.get_moves 1 = [0] ∧
    compute_move toyGame false { } (fun _ _ => 0) (fun _ => 0) 1 = .ok (0, 0) :=
  ⟨by decide,
   c4_single_move_short_circuit toyGame false { } (fun _ _ => 0) (fun _ => 0) 1 0
     (by decide)⟩

/-- An iteration started at a node with no untried moves and no children (a
terminal root) only updates the node's statistics: it creates no child and no
frontier entry. -/
theorem mctsRound_terminal_root [DecidableEq μ] (g : Game σ μ) (cs : Nat → Nat) :
    ∀ (fuel k : Nat) (state : σ) (n : Node μ), n.moves = [] → n.children = [] →
      (mctsRound g cs fuel k state n).1.moves = [] ∧
      (mctsRound g cs fuel k state n).1.children = []
  | 0, k, state, n, hm, hc => by
    simp [mctsRound, hm, hc]
  | fuel + 1, k, state, n, hm, hc => by
    simp [mctsRound, hm, hc]

/-- The whole loop keeps a terminal root childless and frontierless. -/
theorem treeLoop_terminal_root [DecidableEq μ] (g : Game σ μ) (useOpenmp : Bool)
    (opts : ComputeOptions) (oracle : Nat → Rat) (cs : Nat → Nat) (rf : Nat)
    (root_state : σ) :
    ∀ (remaining iter k : Nat) (n : Node μ), n.moves = [] → n.children = [] →
      (treeLoop g useOpenmp opts oracle cs rf root_state remaining iter k
        n).1.moves = [] ∧
      (treeLoop g useOpenmp opts oracle cs rf root_state remaining iter k
        n).1.children = []
  | 0, iter, k, n, hm, hc => by simpa [treeLoop] using ⟨hm, hc⟩
  | remaining + 1, iter, k, n, hm, hc => by
    have h := mctsRound_terminal_root g cs rf k root_state n hm hc
    simp only [treeLoop]
    split
    · exact h
    · exact treeLoop_terminal_root g useOpenmp opts oracle cs rf root_state
        remaining (iter + 1) _ _ h.1 h.2

/-- Mapping a worker over a list succeeds with every result satisfying `P`
when each call does. -/
theorem mapM_ok_of_forall {ε α β : Type} (f : α → Except ε β) (P : β → Prop) :
    ∀ l : List α, (∀ a ∈ l, ∃ b, f a = .ok b ∧ P b) →
      ∃ out : List β, l.mapM f = .ok out ∧ ∀ b ∈ out, P b
  | [], _ => ⟨[], rfl, by simp⟩
  | a :: l', h => by
    obtain ⟨b, hb, hPb⟩ := h a (List.mem_cons_self a l')
    obtain ⟨out, hout, hP⟩ :=
      mapM_ok_of_forall f P l' (fun x hx => h x (List.mem_cons_of_mem a hx))
    refine ⟨b :: out, ?_, ?_⟩
    · rw [List.mapM_cons, hb, hout]
      rfl
    · intro x hx
      rcases List.mem_cons.1 hx with rfl | hx
      · exact hPb
      · exact hP x hx

/-- Merging roots that have no children leaves the statistics empty. -/
theorem mergeRoots_childless (lt : μ → μ → Bool) :
    ∀ (roots : List (Node μ)) (acc : List (μ × Int × Rat) × Int),
      (∀ r ∈ roots, r.children = []) →
      (roots.foldl
        (fun acc root =>
          (root.children.foldl
            (fun s c => statsInsert lt c.move (c.visits : Int) c.wins s) acc.1,
           acc.2 + (root.visits : Int))) acc).1 = acc.1
  | [], acc, _ => rfl
  | root :: roots', acc, h => by
    have hc := h root (List.mem_cons_self root roots')
    rw [List.foldl_cons]
    rw [mergeRoots_childless lt roots' _
      (fun r hr => h r (List.mem_cons_of_mem root hr))]
    simp [hc]

/-- Claim C1 (amended): for a root whose `get_moves()` is empty, no
short-circuit fires; the workers run their full budgets on the terminal
position and `compute_move` returns the value-initialized default move
`Move()` — not the `no_move` sentinel — with the games actually played. -/
theorem c1_amended_no_moves_returns_default [DecidableEq μ] (g : Game σ μ)
    (useOpenmp : Bool) (opts : ComputeOptions) (oracles : Nat → Nat → Rat)
    (cs : Nat → Nat) (root_state : σ)
    (hmoves : g.get_moves root_state = [])
    (hiter : 0 ≤ opts.max_iterations)
    (htime : opts.max_time < 0) :
    ∃ gp, compute_move g useOpenmp opts oracles cs root_state =
      .ok (g.move_default, gp) := by
  have hlen : ¬((g.get_moves root_state).length = 1) := by
    rw [hmoves]
    simp
  have h1 : ¬(({ opts with verbose := false } : ComputeOptions).max_time ≥ 0 ∧
      useOpenmp = false) := fun hc => absurd hc.1 (not_le.2 htime)
  have h2 : ¬(({ opts with verbose := false } : ComputeOptions).max_iterations < 0) :=
    not_lt.2 hiter
  have hworker : ∀ t ∈ List.range opts.number_of_threads.toNat, ∃ tree,
      compute_tree g useOpenmp { opts with verbose := false } (oracles t) cs
        root_state = .ok tree ∧ tree.children = [] := by
    intro t _
    refine ⟨_, by rw [compute_tree, if_neg h1, if_neg h2], ?_⟩
    exact (treeLoop_terminal_root g useOpenmp { opts with verbose := false }
      (oracles t) cs _ root_state _ _ _ (Node.mkRoot g root_state)
      (by simp [hmoves]) (by simp)).2
  obtain ⟨out, hout, hP⟩ := mapM_ok_of_forall
    (fun t => compute_tree g useOpenmp { opts with verbose := false }
      (oracles t) cs root_state)
    (fun tree => tree.children = [])
    (List.range opts.number_of_threads.toNat) hworker
  refine ⟨(mergeRoots g.move_lt out).2, ?_⟩
  rw [compute_move]
  simp only [hlen, if_false]
  rw [hout]
  have hmerge : (mergeRoots g.move_lt out).1 = [] := mergeRoots_childless _ out _ hP
  simp [selectBest, hmerge]

theorem c1_amended_witness :
    (toyGame.get_moves 0 = [] ∧
      (0 : Int) ≤ ({ max_iterations := 1, max_time := -1 } : ComputeOptions).max_iterations ∧
      ({ max_iterations := 1, max_time := -1 } : ComputeOptions).max_time < 0) ∧
    ∃ gp, compute_move toyGame false { max_iterations := 1, max_time := -1 }
        (fun _ _ => 0) (fun _ => 0) 0 = .ok (toyGame.move_default, gp) :=
  ⟨⟨by decide, by decide, by decide⟩,
   c1_amended_no_moves_returns_default toyGame false
     { max_iterations := 1, max_time := -1 } (fun _ _ => 0) (fun _ => 0) 0
     (by decide) (by decide) (by decide)⟩

/-- Claim C1 is false on the code: on a terminal 1×1 board (`get_moves()`
empty), `compute_move` does not return `State::no_move = (-1, -1)` and does
not return immediately; with one worker and a one-iteration budget it runs
the iteration on the terminal position (one game played) and returns the
value-initialized `Move()`, i.e. `(0, 0)`. -/
theorem c1_counterexample :
    s11.get_moves = [] ∧
    compute_move gomokuGame false
      { number_of_threads := 1, max_iterations := 1, max_time := -1 }
      (fun _ _ => 0) (fun _ => 0) s11 = .ok ((0, 0), 1) ∧
    ((0, 0) : Int × Int) ≠ gomokuGame.no_move :=
  ⟨rfl, rfl, by decide⟩

/-- Claim C9 is false on the code: `compute_move` performs no configuration
validation.  With `number_of_threads = 0` (< 1) on a position with two legal
moves it fails to fail: it launches no worker, merges nothing and happily
returns the default move instead of surfacing an error. -/
theorem c9_counterexample :
    compute_move toyGame true
      { number_of_threads := 0, max_iterations := 1, max_time := -1 }
      (fun _ _ => 0) (fun _ => 0) 2 = .ok (0, 0) := rfl

/-- Claim C9 (amended): `compute_move` validates nothing.  In particular,
with `number_of_threads < 1` (and no single-move short-circuit) it returns
the value-initialized default move with zero games played, successfully,
instead of failing fast.  (With both budgets unbounded the worker loop
simply never terminates, and a `max_time ≥ 0` request without OpenMP throws
inside each worker, after launch, surfacing only when the futures are
collected.) -/
theorem c9_amended_no_validation [DecidableEq μ] (g : Game σ μ)
    (useOpenmp : Bool) (opts : ComputeOptions) (oracles : Nat → Nat → Rat)
    (cs : Nat → Nat) (root_state : σ)
    (hthreads : opts.number_of_threads ≤ 0)
    (hmoves : (g.get_moves root_state).length ≠ 1) :
    compute_move g useOpenmp opts oracles cs root_state =
      .ok (g.move_default, 0) := by
  have h0 : opts.number_of_threads.toNat = 0 := Int.toNat_of_nonpos hthreads
  rw [compute_move]
  simp only [hmoves, if_false]
  rw [h0]
  simp [mergeRoots, selectBest]
  rfl

theorem c9_witness :
    (({ number_of_threads := -3, max_iterations := 1 } : ComputeOptions).number_of_threads ≤ 0 ∧
      (toyGame.get_moves 2).length ≠ 1) ∧
    compute_move toyGame true { number_of_threads := -3, max_iterations := 1 }
      (fun _ _ => 0) (fun _ => 0) 2 = .ok (toyGame.move_default, 0) :=
  ⟨⟨by decide, by decide⟩,
   c9_amended_no_validation toyGame true
     { number_of_threads := -3, max_iterations := 1 } (fun _ _ => 0)
     (fun _ => 0) 2 (by decide) (by decide)⟩

/-- Claim C2 (amended): `get_result(p)` for `p ∈ {1, 2}` returns **0.0 when
player `p`'s own marker is the winner and 1.0 when the opponent's marker is
the winner** — the reverse of the claimed orientation — and 0.5 when there is
no winner (draw or unfinished). -/
theorem c2_amended_get_result (s : GomokuState) (p : Int) (hp : p = 1 ∨ p = 2) :
    (s.get_winner = player_markers p → s.get_result p = 0) ∧
    (s.get_winner = player_markers (3 - p) → s.get_result p = 1) ∧
    (s.get_winner = player_markers 0 → s.get_result p = 1 / 2) := by
  rcases hp with rfl | rfl <;>
    refine ⟨?_, ?_, ?_⟩ <;> intro hw <;>
      simp [GomokuState.get_result, hw, player_markers]

/-- Claim C2 is false on the code: in a terminal position where player 1
('X') has won, `get_result 1` returns 0, not the claimed 1. -/
theorem c2_counterexample :
    c2state.get_winner = player_markers 1 ∧
    c2state.get_result 1 = 0 ∧ c2state.get_result 1 ≠ 1 :=
  ⟨rfl, rfl, by decide⟩

theorem c2_amended_witness :
    ((1 : Int) = 1 ∨ (1 : Int) = 2) ∧
    ((c2state.get_winner = player_markers 1 → c2state.get_result 1 = 0) ∧
     (c2state.get_winner = player_markers (3 - 1) → c2state.get_result 1 = 1) ∧
     (c2state.get_winner = player_markers 0 → c2state.get_result 1 = 1 / 2)) :=
  ⟨Or.inl rfl, c2_amended_get_result c2state 1 (Or.inl rfl)⟩

/-- Claim C3 (amended): the node created by expansion stores as
`player_to_move` the player to move in the state *after* its move was played
(the opponent of the player who played the move), and that stored value is
indeed the perspective at which the playout result is credited to the node
(`get_result` is called with it). -/
theorem c3_amended_expand_player [DecidableEq μ] (g : Game σ μ)
    (cs : Nat → Nat) (fuel k : Nat) (state : σ) (n : Node μ)
    (h : n.moves ≠ []) :
    ∃ c, (mctsRound g cs (fuel + 1) k state n).1.children.getLast? = some c ∧
      c.player_to_move =
        g.player_to_move
          (g.do_move state (n.moves.getD (cs k % n.moves.length) g.no_move)) ∧
      c.visits = 1 ∧
      c.wins = g.get_result
        (playout g
          (g.size (g.do_move state
            (n.moves.getD (cs k % n.moves.length) g.no_move)))
          cs (k + 1)
          (g.do_move state (n.moves.getD (cs k % n.moves.length) g.no_move))).1
        c.player_to_move := by
  have hme : n.moves.isEmpty = false := List.isEmpty_eq_false.2 h
  simp only [mctsRound, hme, Bool.false_and, Bool.not_false, if_true,
    Bool.false_eq_true, if_false]
  exact ⟨(Node.mkChild g (n.moves.getD (cs k % n.moves.length) g.no_move)
      (g.do_move state (n.moves.getD (cs k % n.moves.length) g.no_move))).update
      (g.get_result
        (playout g
          (g.size (g.do_move state
            (n.moves.getD (cs k % n.moves.length) g.no_move)))
          cs (k + 1)
          (g.do_move state (n.moves.getD (cs k % n.moves.length) g.no_move))).1
        (Node.mkChild g (n.moves.getD (cs k % n.moves.length) g.no_move)
          (g.do_move state
            (n.moves.getD (cs k % n.moves.length) g.no_move))).player_to_move),
    by simp, by simp, by simp, by simp⟩

theorem c3_amended_witness :
    (Node.mkRoot toyGame 2).moves ≠ [] ∧
    ∃ c, (mctsRound toyGame (fun _ => 0) 1 0 2
        (Node.mkRoot toyGame 2)).1.children.getLast? = some c ∧
      c.player_to_move = toyGame.player_to_move (toyGame.do_move 2
        ((Node.mkRoot toyGame 2).moves.getD
          ((fun _ : Nat => 0) 0 % (Node.mkRoot toyGame 2).moves.length)
          toyGame.no_move)) ∧
      c.visits = 1 ∧
      c.wins = toyGame.get_result
        (playout toyGame
          (toyGame.size (toyGame.do_move 2
            ((Node.mkRoot toyGame 2).moves.getD
              ((fun _ : Nat => 0) 0 % (Node.mkRoot toyGame 2).moves.length)
              toyGame.no_move)))
          (fun _ => 0) (0 + 1)
          (toyGame.do_move 2
            ((Node.mkRoot toyGame 2).moves.getD
              ((fun _ : Nat => 0) 0 % (Node.mkRoot toyGame 2).moves.length)
              toyGame.no_move))).1
        c.player_to_move :=
  ⟨by decide,
   c3_amended_expand_player toyGame (fun _ => 0) 0 0 2 (Node.mkRoot toyGame 2)
     (by decide)⟩

/-- Claim C3 is false on the code: from the fresh 1×1 position the player to
move (who then plays the single expansion's move) is 1, but the node created
for that move stores `player_to_move = 2` — the player to move *after* the
move, not before. -/
theorem c3_counterexample :
    (GomokuState.init 1).player_to_move = 1 ∧
    (compute_tree gomokuGame false { max_iterations := 1, max_time := -1 }
      (fun _ => 0) (fun _ => 0) (GomokuState.init 1)).map
        (fun t => t.children.map Node.player_to_move) = .ok [2] :=
  ⟨rfl, rfl⟩

/-- Claim C5 meets a genuine bug: in the OpenMP build, the time check
`omp_get_wtime() - start_time >= max_time` is guarded by
`verbose || max_time >= 0`, not by `max_time >= 0` alone, so with
`verbose = true` and the "unbounded" `max_time = -1` it is vacuously true
and `break`s after the first iteration.  With `max_iterations = 2` the run
executes one iteration instead of two: the root's visit count is 1. -/
theorem c5_code_bug_eval :
    (compute_tree toyGame true
      { max_iterations := 2, max_time := -1, verbose := true }
      (fun _ => 0) (fun _ => 0) 2).map Node.visits = .ok 1 := rfl
